import Mathlib

/-!
Verification of the Trotterized Hamiltonian Evolution Engine specified for the
`quarmen_school24` notebooks, together with the notebook-level helper functions
`get_hamiltonian` (Real-Time-Evolution notebook) and `fourier_coefficients`
(Quantum-Models-as-Fourier-Series notebook).

The notebooks delegate product-formula synthesis, Trotterized evolution and
Pauli-operator simplification to external library routines; those components
are modelled here from the specification's own description (each such
definition carries a doc comment starting with `Modelled from the spec:`).
The functions `get_hamiltonian`, the exact evolution by dense matrix
exponentiation, and `fourier_coefficients` are embedded from the notebook
source itself.
-/

set_option maxHeartbeats 1000000

noncomputable section

open scoped Matrix ComplexConjugate

/-- Elementary single-site operator symbols, the Pauli labels used by the
notebook's sparse-Pauli representation. -/
inductive PauliSym
  | pI | pX | pY | pZ
  deriving DecidableEq

/-- WeightedTerm from the spec's data model: an operator label (sequence of
elementary-operator symbols), the qubit indices it acts on, and a complex
coefficient. -/
structure WeightedTerm where
  label : List PauliSym
  indices : List ℕ
  coeff : ℂ

/-- Hamiltonian from the spec's data model: an ordered collection of weighted
terms plus the number of sites. -/
structure Hamiltonian where
  num_sites : ℕ
  terms : List WeightedTerm

/-- The error taxonomy of the spec (section 7). -/
inductive EvolError
  | invalidTerm
  | unsupportedOrder
  | invalidStepCount
  | dimensionMismatch
  deriving DecidableEq

/-- Modelled from the spec: the recursive coefficient `u_k = 1/(4 - 4^(1/(2k-1)))`
of the order-`2k` Suzuki formula, written as a function of the order `2k`
(so the exponent denominator `2k - 1` is `order - 1`). -/
def uCoeff (order : ℕ) : ℝ :=
  1 / (4 - (4 : ℝ) ^ ((1 : ℝ) / ((order : ℝ) - 1)))

/-- Modelled from the spec: the order-2 (Suzuki second-order / leapfrog) factor
sequence for terms `T_1 .. T_n`: each of `T_1 .. T_(n-1)` with a half step,
`T_n` with a full step, then the half-step pass reversed.  Each emitted pair is
`(term, angle)` with `angle = coefficient * (assigned fraction of dt)`. -/
def leapfrogSeq (ts : List WeightedTerm) (dt : ℝ) : List (WeightedTerm × ℂ) :=
  match ts.getLast? with
  | none => []
  | some tn =>
      let half := ts.dropLast.map fun t => (t, t.coeff * ((dt / 2 : ℝ) : ℂ))
      half ++ [(tn, tn.coeff * (dt : ℂ))] ++ half.reverse

/-- Modelled from the spec: the product-formula synthesizer `synthesize_step`
(the actual synthesis is qiskit's `LieTrotter`/`SuzukiTrotter`, library code not
present in the repository).  Order 1 emits every term once with angle
`coefficient * dt`; order 2 is the leapfrog sequence; an even order `2k ≥ 4` is
built from five recursive order-`2(k-1)` calls scaled by `u_k` and `1 - 4*u_k`;
order 0 and odd orders above 1 are rejected with `UnsupportedOrderError`. -/
def synthesizeStep (ts : List WeightedTerm) : ℝ → ℕ → Except EvolError (List (WeightedTerm × ℂ))
  | _, 0 => .error .unsupportedOrder
  | dt, 1 => .ok (ts.map fun t => (t, t.coeff * (dt : ℂ)))
  | dt, 2 => .ok (leapfrogSeq ts dt)
  | dt, n + 3 =>
      if (n + 3) % 2 = 0 then
        match synthesizeStep ts (uCoeff (n + 3) * dt) (n + 1),
            synthesizeStep ts ((1 - 4 * uCoeff (n + 3)) * dt) (n + 1) with
        | .ok su, .ok sm => .ok (su ++ su ++ sm ++ su ++ su)
        | .error e, _ => .error e
        | _, .error e => .error e
      else .error .unsupportedOrder

end

section ClaimOneTwo

/-- A supported product-formula order: 1, or an even order at least 2. -/
def SupportedOrder (order : ℕ) : Prop :=
  order = 1 ∨ (order % 2 = 0 ∧ 2 ≤ order)

instance : DecidablePred SupportedOrder := fun _ => by
  unfold SupportedOrder; infer_instance

/-- Concrete terms used by witnesses. -/
def wtA : WeightedTerm := ⟨[PauliSym.pX], [0], 1⟩

/-- Second concrete term used by witnesses. -/
def wtB : WeightedTerm := ⟨[PauliSym.pZ, PauliSym.pZ], [0, 1], 2⟩

/-- Third concrete term used by witnesses. -/
def wtC : WeightedTerm := ⟨[PauliSym.pZ], [1], -1⟩

end ClaimOneTwo

noncomputable section Matrices

/-- The 2x2 matrix of an elementary operator symbol. -/
def pauliMat : PauliSym → Matrix (Fin 2) (Fin 2) ℂ
  | .pI => 1
  | .pX => Matrix.of ![![0, 1], ![1, 0]]
  | .pY => Matrix.of ![![0, -Complex.I], ![Complex.I, 0]]
  | .pZ => Matrix.of ![![1, 0], ![0, -1]]

/-- The single-site operator a weighted term applies at site `s`: the labelled
operator if `s` occurs among the term's indices, the identity otherwise. -/
def siteOp (label : List PauliSym) (indices : List ℕ) (s : ℕ) :
    Matrix (Fin 2) (Fin 2) ℂ :=
  match indices.findIdx? (· == s) with
  | some j => pauliMat (label.getD j PauliSym.pI)
  | none => 1

/-- Bit of a computational-basis index at site `s` (site 0 least significant,
matching the right-to-left label convention of the notebook). -/
def siteBit (s : ℕ) (i : ℕ) : Fin 2 := ⟨i / 2 ^ s % 2, by omega⟩

/-- Kronecker expansion of a term's elementary operators into the full
`2^L`-dimensional space: entry `(i, j)` is the product over all sites of the
single-site operator entries at the sites' bits. -/
def termMatrixL (L : ℕ) (label : List PauliSym) (indices : List ℕ) :
    Matrix (Fin (2 ^ L)) (Fin (2 ^ L)) ℂ :=
  Matrix.of fun i j => ∏ s ∈ Finset.range L, siteOp label indices s (siteBit s i) (siteBit s j)

/-- The full-space matrix of a weighted term (without its coefficient). -/
def termMatrix (L : ℕ) (t : WeightedTerm) : Matrix (Fin (2 ^ L)) (Fin (2 ^ L)) ℂ :=
  termMatrixL L t.label t.indices

/-- The operator denoted by a list of weighted terms on `L` sites: the sum of
the coefficient-scaled Kronecker expansions. -/
def termsSum (L : ℕ) (l : List WeightedTerm) : Matrix (Fin (2 ^ L)) (Fin (2 ^ L)) ℂ :=
  (l.map fun t => t.coeff • termMatrix L t).sum

/-- Materialize the full dense matrix of a Hamiltonian, Kronecker-expanding each
term and summing (spec section 4.1, used by the notebook via `H.to_matrix()`). -/
def to_dense_matrix (H : Hamiltonian) :
    Matrix (Fin (2 ^ H.num_sites)) (Fin (2 ^ H.num_sites)) ℂ :=
  termsSum H.num_sites H.terms

/-- The elementary exponential factor of one synthesized `(term, angle)` pair:
`exp(-i * angle * P)` where `P` is the term's Pauli-string matrix. -/
def expFactor (L : ℕ) (p : WeightedTerm × ℂ) : Matrix (Fin (2 ^ L)) (Fin (2 ^ L)) ℂ :=
  NormedSpace.exp ℂ ((-Complex.I * p.2) • termMatrix L p.1)

/-- Apply every elementary exponential factor of one Trotter step, in sequence,
to a state vector. -/
def stepOnce (L : ℕ) (factors : List (WeightedTerm × ℂ)) (v : Fin (2 ^ L) → ℂ) :
    Fin (2 ^ L) → ℂ :=
  factors.foldl (fun w p => (expFactor L p).mulVec w) v

/-- View a state, stored as a list, as a vector of dimension `2^L`. -/
def toVec (L : ℕ) (l : List ℂ) : Fin (2 ^ L) → ℂ := fun i => l.getD i 0

/-- EvolutionProblem from the spec's data model (observables omitted: no claim
mentions them). -/
structure EvolutionProblem where
  hamiltonian : Hamiltonian
  initial_state : List ℂ
  total_time : ℝ

/-- EvolutionResult from the spec's data model: the final state and the
recorded per-step state snapshots (the `t = 0` entry first). -/
structure EvolutionResult where
  final_state : List ℂ
  recorded : List (List ℂ)

/-- Modelled from the spec: the evolution driver `evolve` (the notebook's
`TrotterQRTE.evolve`, library code not present in the repository).  Validation
precedes computation: a nonpositive step count fails with
`InvalidStepCountError`, a state dimension different from `2^num_sites` fails
with `DimensionMismatchError`.  Otherwise the per-step factor sequence is
synthesized once for `dt = total_time / num_steps` and applied `num_steps`
times, recording the state after every step (and the initial state). -/
def evolve (prob : EvolutionProblem) (num_steps : ℤ) (order : ℕ) :
    Except EvolError EvolutionResult :=
  if num_steps ≤ 0 then .error .invalidStepCount
  else if prob.initial_state.length ≠ 2 ^ prob.hamiltonian.num_sites then
    .error .dimensionMismatch
  else
    match synthesizeStep prob.hamiltonian.terms
        (prob.total_time / ((num_steps : ℤ) : ℝ)) order with
    | .error e => .error e
    | .ok factors =>
        let L := prob.hamiltonian.num_sites
        let v0 := toVec L prob.initial_state
        let n := num_steps.toNat
        .ok { final_state := List.ofFn ((stepOnce L factors)^[n] v0)
              recorded := (List.range (n + 1)).map fun k =>
                List.ofFn ((stepOnce L factors)^[k] v0) }

/-- The exact state at time `t`, by dense matrix exponentiation: the notebook
computes `initial_state.evolve(expm(-1j * t * H_array))`. -/
def exact_state (prob : EvolutionProblem) (t : ℝ) :
    Fin (2 ^ prob.hamiltonian.num_sites) → ℂ :=
  (NormedSpace.exp ℂ ((-Complex.I * (t : ℂ)) • to_dense_matrix prob.hamiltonian)).mulVec
    (toVec prob.hamiltonian.num_sites prob.initial_state)

/-- The exact reference evolver of the spec: one exact state per sample time
(the notebook's `exact_evolution` list comprehension). -/
def exact_evolution (prob : EvolutionProblem) (sample_times : List ℝ) :
    List (Fin (2 ^ prob.hamiltonian.num_sites) → ℂ) :=
  sample_times.map (exact_state prob)

/-- Squared Euclidean norm of a state stored as a list. -/
def listNormSq (l : List ℂ) : ℝ := (l.map Complex.normSq).sum

/-- Squared Euclidean norm of a state vector. -/
def vecNormSq {n : ℕ} (v : Fin n → ℂ) : ℝ := ∑ i, Complex.normSq (v i)

end Matrices

noncomputable section Simplify

/-- Modelled from the spec: the grouping key of `simplify()` - the term's
sorted index set together with its label. -/
def termKey (t : WeightedTerm) : List ℕ × List PauliSym :=
  (t.indices.insertionSort (· ≤ ·), t.label)

/-- Modelled from the spec: `simplify()` groups terms by identical (sorted)
index set and identical label, sums the coefficients of each group, and drops
groups whose summed coefficient is zero (the qiskit `SparsePauliOp.simplify`
called by the notebook is library code not present in the repository). -/
def simplifyTerms : List WeightedTerm → List WeightedTerm
  | [] => []
  | t :: rest =>
      let c := t.coeff + ((rest.filter fun u => termKey u == termKey t).map
        WeightedTerm.coeff).sum
      let rest' := rest.filter fun u => !(termKey u == termKey t)
      if c = 0 then simplifyTerms rest'
      else ⟨(termKey t).2, (termKey t).1, c⟩ :: simplifyTerms rest'
  termination_by l => l.length
  decreasing_by
    exact Nat.lt_succ_of_le (List.length_filter_le _ _)

/-- Modelled from the spec: `simplify` on a Hamiltonian. -/
def simplify (H : Hamiltonian) : Hamiltonian :=
  ⟨H.num_sites, simplifyTerms H.terms⟩

/-- The Hamiltonian builder of the Real-Time-Evolution notebook: `L-1`
nearest-neighbour `ZZ` couplings with coefficient `-J`, one `Z` term per site
with coefficient `-h*sin(alpha)`, one `X` term per site with coefficient
`-h*cos(alpha)`, assembled and then simplified. -/
def get_hamiltonian (L : ℕ) (J h alpha : ℝ) : Hamiltonian :=
  let ZZ_tuples := (List.range (L - 1)).map fun i =>
    (⟨[PauliSym.pZ, PauliSym.pZ], [i, i + 1], ((-J : ℝ) : ℂ)⟩ : WeightedTerm)
  let Z_tuples := (List.range L).map fun i =>
    (⟨[PauliSym.pZ], [i], ((-h * Real.sin alpha : ℝ) : ℂ)⟩ : WeightedTerm)
  let X_tuples := (List.range L).map fun i =>
    (⟨[PauliSym.pX], [i], ((-h * Real.cos alpha : ℝ) : ℂ)⟩ : WeightedTerm)
  simplify ⟨L, ZZ_tuples ++ Z_tuples ++ X_tuples⟩

end Simplify

noncomputable section Fourier

/-- Discrete Fourier transform of real input restricted to the nonnegative
frequencies: the mathematical contract of `numpy.fft.rfft`, which returns
`n/2 + 1` (integer division) coefficients `sum_j x_j exp(-2 pi i j k / n)`. -/
def rfft (x : List ℂ) : List ℂ :=
  (List.range (x.length / 2 + 1)).map fun k : ℕ =>
    ((List.range x.length).map fun j : ℕ =>
      x.getD j 0 * Complex.exp (-2 * Real.pi * Complex.I * j * k / x.length)).sum

/-- The sample grid `numpy.linspace(0, 2*pi, n, endpoint=False)`: `n` equispaced
points of `[0, 2*pi)` with the right endpoint excluded. -/
def samplePoints (n : ℕ) : List ℝ :=
  (List.range n).map fun j : ℕ => 2 * Real.pi * j / (n : ℝ)

/-- The Fourier-coefficient estimator of the Quantum-Models-as-Fourier-Series
notebook: sample the function at `2K+1` equispaced points of `[0, 2*pi)`
(endpoint excluded), take the real FFT and divide by the sample count. -/
def fourier_coefficients (f : ℝ → ℝ) (K : ℕ) : List ℂ :=
  let n_coeffs : ℕ := 2 * K + 1
  let t : List ℝ := samplePoints n_coeffs
  let y := (rfft (t.map fun x => ((f x : ℝ) : ℂ))).map fun z => z / (t.length : ℂ)
  y

end Fourier

noncomputable section ConcreteInputs

/-- Concrete evolution problem used by the norm-preservation witness: the empty
Hamiltonian on zero sites, the one-dimensional unit state, total time 5. -/
def probNorm : EvolutionProblem := ⟨⟨0, []⟩, [1], 5⟩

/-- The evolution result `evolve probNorm 1 1` computes to. -/
def resNorm : EvolutionResult := ⟨[1], [[1], [1]]⟩

/-- Concrete evolution problem used by the zero-time witness. -/
def probZero : EvolutionProblem := ⟨⟨0, []⟩, [1], 0⟩

/-- Concrete evolution problem used by the commuting-terms witness: one term on
zero sites (its full-space matrix is the scalar 1), unit state, total time 1. -/
def probComm : EvolutionProblem := ⟨⟨0, [wtA]⟩, [1], 1⟩

/-- Two-site Hamiltonian whose two terms share a sorted index set and a label
but align the label to the indices differently: `X_0 Z_1` and `X_1 Z_0`. -/
def Hunsorted : Hamiltonian :=
  ⟨2, [⟨[PauliSym.pX, PauliSym.pZ], [0, 1], 1⟩, ⟨[PauliSym.pX, PauliSym.pZ], [1, 0], 1⟩]⟩

/-- The longitudinal-field scenario of the notebook: the 2-site Hamiltonian
with `J = 0.2`, `h = 1`, `alpha = pi/2`, initial basis state `|10>` (index 2 in
the right-to-left qubit order, so the state list is `[0, 0, 1, 0]`), and total
time 1.6. -/
def probLong : EvolutionProblem :=
  ⟨get_hamiltonian 2 0.2 1 (Real.pi / 2), [0, 0, 1, 0], 1.6⟩

/-- The final state of a run of `evolve`, or `[]` if the run fails. -/
def evolveFinalState (prob : EvolutionProblem) (num_steps : ℤ) (order : ℕ) : List ℂ :=
  match evolve prob num_steps order with
  | .ok r => r.final_state
  | .error _ => []

end ConcreteInputs

open scoped Matrix ComplexConjugate

/-! ## Helper lemmas about the synthesizer -/

/-- Every supported order synthesizes successfully, for every step duration. -/
theorem synthesizeStep_ok (ts : List WeightedTerm) :
    ∀ order, SupportedOrder order → ∀ dt : ℝ,
      ∃ l, synthesizeStep ts dt order = .ok l := by
  intro order
  induction order using Nat.strong_induction_on with
  | _ order ih =>
    intro hord dt
    match order, hord with
    | 1, _ => exact ⟨_, rfl⟩
    | 2, _ => exact ⟨_, rfl⟩
    | (n + 3), h =>
      have hev : (n + 3) % 2 = 0 := by
        rcases h with h | h
        · omega
        · exact h.1
      have hrec : SupportedOrder (n + 1) := by
        right; omega
      obtain ⟨su, hsu⟩ := ih (n + 1) (by omega) hrec (uCoeff (n + 3) * dt)
      obtain ⟨sm, hsm⟩ := ih (n + 1) (by omega) hrec ((1 - 4 * uCoeff (n + 3)) * dt)
      refine ⟨su ++ su ++ sm ++ su ++ su, ?_⟩
      simp only [synthesizeStep, if_pos hev, hsu, hsm]

/-- The synthesizer only ever fails with the unsupported-order error. -/
theorem synthesizeStep_error_eq (ts : List WeightedTerm) :
    ∀ order dt e, synthesizeStep ts dt order = .error e → e = .unsupportedOrder := by
  intro order
  induction order using Nat.strong_induction_on with
  | _ order ih =>
    intro dt e h
    match order with
    | 0 => simpa [synthesizeStep] using h.symm
    | 1 => simp [synthesizeStep] at h
    | 2 => simp [synthesizeStep] at h
    | (n + 3) =>
      rw [synthesizeStep] at h
      by_cases hev : (n + 3) % 2 = 0
      · rw [if_pos hev] at h
        rcases hsu : synthesizeStep ts (uCoeff (n + 3) * dt) (n + 1) with e1 | su <;>
          rcases hsm : synthesizeStep ts ((1 - 4 * uCoeff (n + 3)) * dt) (n + 1) with e2 | sm <;>
          rw [hsu, hsm] at h
        · exact ih (n + 1) (by omega) _ _ (by rw [hsu]; injection h with h'; rw [h'])
        · exact ih (n + 1) (by omega) _ _ (by rw [hsu]; injection h with h'; rw [h'])
        · exact ih (n + 1) (by omega) _ _ (by rw [hsm]; injection h with h'; rw [h'])
        · simp at h
      · rw [if_neg hev] at h
        injection h with h'
        exact h'.symm

/-- Every synthesized factor pairs a term of the input list with an angle that
is that term's coefficient times a real fraction of `dt`; the fraction vanishes
when `dt = 0`. -/
theorem synthesizeStep_factors (ts : List WeightedTerm) :
    ∀ order dt fs, synthesizeStep ts dt order = .ok fs →
      ∀ p ∈ fs, p.1 ∈ ts ∧ ∃ r : ℝ, p.2 = p.1.coeff * (r : ℂ) ∧ (dt = 0 → r = 0) := by
  intro order
  induction order using Nat.strong_induction_on with
  | _ order ih =>
    intro dt fs h p hp
    match order with
    | 0 => simp [synthesizeStep] at h
    | 1 =>
      rw [synthesizeStep] at h
      injection h with h'
      subst h'
      obtain ⟨t, ht, rfl⟩ := List.mem_map.1 hp
      exact ⟨ht, dt, rfl, fun h0 => h0⟩
    | 2 =>
      rw [synthesizeStep] at h
      injection h with h'
      subst h'
      unfold leapfrogSeq at hp
      cases hts : ts.getLast? with
      | none => rw [hts] at hp; simp at hp
      | some tn =>
        rw [hts] at hp
        simp only [List.append_assoc, List.mem_append, List.mem_reverse,
          List.mem_singleton, List.mem_map] at hp
        have htn : tn ∈ ts := List.mem_of_mem_getLast? (by rw [hts]; rfl)
        rcases hp with ⟨t, ht, rfl⟩ | (rfl | ⟨t, ht, rfl⟩)
        · exact ⟨List.mem_of_mem_dropLast ht, dt / 2, rfl, fun h0 => by rw [h0]; ring⟩
        · exact ⟨htn, dt, rfl, fun h0 => h0⟩
        · exact ⟨List.mem_of_mem_dropLast ht, dt / 2, rfl, fun h0 => by rw [h0]; ring⟩
    | (n + 3) =>
      rw [synthesizeStep] at h
      by_cases hev : (n + 3) % 2 = 0
      · rw [if_pos hev] at h
        rcases hsu : synthesizeStep ts (uCoeff (n + 3) * dt) (n + 1) with e1 | su <;>
          rcases hsm : synthesizeStep ts ((1 - 4 * uCoeff (n + 3)) * dt) (n + 1) with e2 | sm <;>
          rw [hsu, hsm] at h
        iterate 3 exact absurd h (by simp)
        injection h with h'
        subst h'
        simp only [List.append_assoc, List.mem_append] at hp
        have hu : ∀ q ∈ su, q.1 ∈ ts ∧ ∃ r : ℝ, q.2 = q.1.coeff * (r : ℂ) ∧ (dt = 0 → r = 0) := by
          intro q hq
          obtain ⟨h1, r, hr, h0⟩ := ih (n + 1) (by omega) _ _ hsu q hq
          exact ⟨h1, r, hr, fun hd => h0 (by rw [hd]; ring)⟩
        have hm : ∀ q ∈ sm, q.1 ∈ ts ∧ ∃ r : ℝ, q.2 = q.1.coeff * (r : ℂ) ∧ (dt = 0 → r = 0) := by
          intro q hq
          obtain ⟨h1, r, hr, h0⟩ := ih (n + 1) (by omega) _ _ hsm q hq
          exact ⟨h1, r, hr, fun hd => h0 (by rw [hd]; ring)⟩
        rcases hp with hp | hp | hp | hp | hp
        · exact hu p hp
        · exact hu p hp
        · exact hm p hp
        · exact hu p hp
        · exact hu p hp
      · rw [if_neg hev] at h
        simp at h

/-! ## Claim C1 -/

/-- C1: for every term list `T_1 .. T_n` and every step duration `dt`, order-2
synthesis emits exactly the half-step forward pass `T_1(dt/2) .. T_(n-1)(dt/2)`,
the last term with a full step `T_n(dt)`, then the reverse of the half-step
pass. -/
theorem synthesize_step_order2 (ts : List WeightedTerm) (dt : ℝ) (hne : ts ≠ []) :
    synthesizeStep ts dt 2 =
      .ok ((ts.dropLast.map fun t => (t, t.coeff * ((dt / 2 : ℝ) : ℂ))) ++
        [(ts.getLast hne, (ts.getLast hne).coeff * (dt : ℂ))] ++
        (ts.dropLast.map fun t => (t, t.coeff * ((dt / 2 : ℝ) : ℂ))).reverse) := by
  simp only [synthesizeStep, leapfrogSeq, List.getLast?_eq_getLast_of_ne_nil hne]

/-- Witness for C1 at a concrete three-term list and `dt = 2`. -/
theorem synthesize_step_order2_witness :
    synthesizeStep [wtA, wtB, wtC] 2 2 =
      .ok (([wtA, wtB].map fun t => (t, t.coeff * (((2 : ℝ) / 2 : ℝ) : ℂ))) ++
        [(wtC, wtC.coeff * ((2 : ℝ) : ℂ))] ++
        (([wtA, wtB].map fun t => (t, t.coeff * (((2 : ℝ) / 2 : ℝ) : ℂ))).reverse)) := by
  have h := synthesize_step_order2 [wtA, wtB, wtC] 2 (by simp)
  simpa using h

/-! ## Claim C2 -/

/-- C2: for every even order `2k` with `k > 1` the synthesizer recurses into
five order-`2(k-1)` sub-sequences, twice at `u_k * dt`, once at
`(1 - 4*u_k) * dt`, twice at `u_k * dt` again, with
`u_k = 1 / (4 - 4^(1/(2k-1)))`; every odd order above 1 and order 0 fail with
the unsupported-order error. -/
theorem synthesize_step_recursive (ts : List WeightedTerm) (dt : ℝ) (k : ℕ) (hk : 2 ≤ k) :
    (∃ su sm,
      synthesizeStep ts (uCoeff (2 * k) * dt) (2 * (k - 1)) = .ok su ∧
      synthesizeStep ts ((1 - 4 * uCoeff (2 * k)) * dt) (2 * (k - 1)) = .ok sm ∧
      synthesizeStep ts dt (2 * k) = .ok (su ++ su ++ sm ++ su ++ su) ∧
      uCoeff (2 * k) = 1 / (4 - (4 : ℝ) ^ ((1 : ℝ) / (2 * (k : ℝ) - 1)))) ∧
    (∀ m, m % 2 = 1 → 1 < m → synthesizeStep ts dt m = .error .unsupportedOrder) ∧
    synthesizeStep ts dt 0 = .error .unsupportedOrder := by
  refine ⟨?_, ?_, rfl⟩
  · obtain ⟨n, hn⟩ : ∃ n, 2 * k = n + 3 := ⟨2 * k - 3, by omega⟩
    have hrec : SupportedOrder (n + 1) := by right; omega
    obtain ⟨su, hsu⟩ := synthesizeStep_ok ts (n + 1) hrec (uCoeff (2 * k) * dt)
    obtain ⟨sm, hsm⟩ := synthesizeStep_ok ts (n + 1) hrec ((1 - 4 * uCoeff (2 * k)) * dt)
    have h21 : 2 * (k - 1) = n + 1 := by omega
    refine ⟨su, sm, by rw [h21]; exact hsu, by rw [h21]; exact hsm, ?_, ?_⟩
    · rw [hn] at hsu hsm ⊢
      have hev : (n + 3) % 2 = 0 := by omega
      simp only [synthesizeStep, if_pos hev, hsu, hsm]
    · unfold uCoeff
      have hcast : ((2 * k : ℕ) : ℝ) - 1 = 2 * (k : ℝ) - 1 := by push_cast; ring
      rw [hcast]
  · intro m hm hm1
    obtain ⟨n, hn⟩ : ∃ n, m = n + 3 := ⟨m - 3, by omega⟩
    subst hn
    have hodd : ¬((n + 3) % 2 = 0) := by omega
    simp only [synthesizeStep, if_neg hodd]

/-- Witness for C2 at order 4 (`k = 2`), a one-term list and `dt = 1`. -/
theorem synthesize_step_recursive_witness :
    (2 ≤ 2) ∧
    ((∃ su sm,
      synthesizeStep [wtA] (uCoeff (2 * 2) * 1) (2 * (2 - 1)) = .ok su ∧
      synthesizeStep [wtA] ((1 - 4 * uCoeff (2 * 2)) * 1) (2 * (2 - 1)) = .ok sm ∧
      synthesizeStep [wtA] 1 (2 * 2) = .ok (su ++ su ++ sm ++ su ++ su) ∧
      uCoeff (2 * 2) = 1 / (4 - (4 : ℝ) ^ ((1 : ℝ) / (2 * (2 : ℝ) - 1)))) ∧
    (∀ m, m % 2 = 1 → 1 < m → synthesizeStep [wtA] 1 m = .error .unsupportedOrder) ∧
    synthesizeStep [wtA] 1 0 = .error .unsupportedOrder) :=
  ⟨by decide, synthesize_step_recursive [wtA] 1 2 (by decide)⟩

/-! ## Claim C5 -/

/-- C5 (amended): `evolve` fails with the invalid-step-count error exactly when
`num_steps ≤ 0`, and with the dimension-mismatch error exactly when
`num_steps ≥ 1` and the initial state's dimension differs from `2^num_sites`
(the step-count check runs first).  The embedding is a pure function, so no
state mutation is observable in any failing case. -/
theorem evolve_validation (prob : EvolutionProblem) (num_steps : ℤ) (order : ℕ) :
    (evolve prob num_steps order = .error .invalidStepCount ↔ num_steps ≤ 0) ∧
    (evolve prob num_steps order = .error .dimensionMismatch ↔
      0 < num_steps ∧ prob.initial_state.length ≠ 2 ^ prob.hamiltonian.num_sites) := by
  unfold evolve
  by_cases h1 : num_steps ≤ 0
  · rw [if_pos h1]
    constructor
    · simp [h1]
    · simp
      omega
  · rw [if_neg h1]
    by_cases h2 : prob.initial_state.length ≠ 2 ^ prob.hamiltonian.num_sites
    · rw [if_pos h2]
      constructor
      · simp
        omega
      · simp [h2]
        omega
    · rw [if_neg h2]
      rcases hs : synthesizeStep prob.hamiltonian.terms
          (prob.total_time / ((num_steps : ℤ) : ℝ)) order with e | fs
      · have he := synthesizeStep_error_eq _ _ _ _ hs
        subst he
        simp only [hs]
        constructor
        · simp
          omega
        · simp [h2]
      · simp only [hs]
        constructor
        · simp
          omega
        · simp [h2]

/-- Counterexample for C5 as frozen: on a doubly-invalid input (zero steps and
a dimension mismatch at the same time) `evolve` reports the invalid step count,
not the dimension mismatch, so "fails with DimensionMismatchError exactly when
the dimension differs" does not hold. -/
theorem evolve_error_precedence_cex :
    evolve ⟨⟨0, []⟩, [], 0⟩ 0 1 = .error .invalidStepCount ∧
    (([] : List ℂ).length ≠ 2 ^ (0 : ℕ)) ∧
    evolve ⟨⟨0, []⟩, [], 0⟩ 0 1 ≠ .error .dimensionMismatch := by
  refine ⟨?_, by simp, ?_⟩
  · simp [evolve]
  · simp [evolve]

/-! ## Claim C10 -/

/-- C10: `fourier_coefficients` samples the function at `2K+1` equispaced
points of `[0, 2*pi)` (endpoint excluded) and returns `K+1` complex values
(the length of the real FFT of `2K+1` real samples), which for `K ≥ 1` differs
from the `2K+1` values announced by its docstring. -/
theorem fourier_coefficients_len (f : ℝ → ℝ) (K : ℕ) :
    (fourier_coefficients f K).length = K + 1 ∧
    (samplePoints (2 * K + 1)).length = 2 * K + 1 ∧
    (∀ x ∈ samplePoints (2 * K + 1), 0 ≤ x ∧ x < 2 * Real.pi) ∧
    (1 ≤ K → (fourier_coefficients f K).length ≠ 2 * K + 1) := by
  have hlen : (fourier_coefficients f K).length = K + 1 := by
    unfold fourier_coefficients rfft samplePoints
    simp only [List.length_map, List.length_range]
    omega
  refine ⟨hlen, by simp [samplePoints], ?_, fun hK => by omega⟩
  intro x hx
  unfold samplePoints at hx
  simp only [List.mem_map, List.mem_range] at hx
  obtain ⟨j, hj, rfl⟩ := hx
  have hn : (0 : ℝ) < ((2 * K + 1 : ℕ) : ℝ) := by positivity
  constructor
  · positivity
  · rw [div_lt_iff₀ hn]
    have hjr : (j : ℝ) < ((2 * K + 1 : ℕ) : ℝ) := by exact_mod_cast hj
    nlinarith [Real.pi_pos]

/-- Witness for C10 at `K = 1` and the zero function. -/
theorem fourier_coefficients_len_witness :
    (1 ≤ 1) ∧ (fourier_coefficients (fun _ => 0) 1).length = 1 + 1 ∧
    (fourier_coefficients (fun _ => 0) 1).length ≠ 2 * 1 + 1 :=
  ⟨by decide, (fourier_coefficients_len (fun _ => 0) 1).1,
    (fourier_coefficients_len (fun _ => 0) 1).2.2.2 (by decide)⟩

/-! ## Helper lemmas about the matrix layer -/

/-- Every elementary operator matrix is Hermitian. -/
theorem pauliMat_hermitian (p : PauliSym) : (pauliMat p)ᴴ = pauliMat p := by
  cases p <;> ext i j <;> fin_cases i <;> fin_cases j <;>
    simp [pauliMat, Matrix.conjTranspose_apply]

/-- Every single-site operator is Hermitian. -/
theorem siteOp_hermitian (label : List PauliSym) (indices : List ℕ) (s : ℕ) :
    (siteOp label indices s)ᴴ = siteOp label indices s := by
  unfold siteOp
  cases indices.findIdx? (· == s) with
  | none => exact Matrix.conjTranspose_one
  | some j => exact pauliMat_hermitian _

/-- The Kronecker-expanded matrix of a term is Hermitian. -/
theorem termMatrixL_hermitian (L : ℕ) (label : List PauliSym) (indices : List ℕ) :
    (termMatrixL L label indices)ᴴ = termMatrixL L label indices := by
  ext i j
  simp only [termMatrixL, Matrix.conjTranspose_apply, Matrix.of_apply]
  rw [star_prod]
  refine Finset.prod_congr rfl fun s _ => ?_
  have h := congrFun (congrFun (siteOp_hermitian label indices s) (siteBit s i)) (siteBit s j)
  simpa [Matrix.conjTranspose_apply] using h

/-- The squared norm of a vector, as the complex dot product with its
conjugate. -/
theorem vecNormSq_eq_dot {n : ℕ} (v : Fin n → ℂ) :
    ((vecNormSq v : ℝ) : ℂ) = Matrix.dotProduct (star v) v := by
  simp only [vecNormSq, Matrix.dotProduct, Pi.star_apply, Complex.star_def]
  push_cast
  refine Finset.sum_congr rfl fun i _ => ?_
  rw [Complex.normSq_eq_conj_mul_self]

/-- A matrix with `Uᴴ * U = 1` preserves the squared norm. -/
theorem vecNormSq_mulVec {n : ℕ} (U : Matrix (Fin n) (Fin n) ℂ)
    (hU : Uᴴ * U = 1) (v : Fin n → ℂ) :
    vecNormSq (U.mulVec v) = vecNormSq v := by
  have h1 : ((vecNormSq (U.mulVec v) : ℝ) : ℂ) = ((vecNormSq v : ℝ) : ℂ) := by
    rw [vecNormSq_eq_dot, vecNormSq_eq_dot, Matrix.star_mulVec,
      Matrix.dotProduct_mulVec, Matrix.vecMul_vecMul, hU, Matrix.vecMul_one]
  exact_mod_cast h1

/-- The exponential factor of a real angle is unitary. -/
theorem expFactor_unitary (L : ℕ) (p : WeightedTerm × ℂ) (him : p.2.im = 0) :
    (expFactor L p)ᴴ * expFactor L p = 1 := by
  have hconj : (starRingEnd ℂ) p.2 = p.2 := Complex.conj_eq_iff_im.mpr him
  have hstar : star (-Complex.I * p.2) = Complex.I * p.2 := by
    rw [Complex.star_def, map_mul, map_neg, Complex.conj_I, hconj]
    ring
  have hAH : ((-Complex.I * p.2) • termMatrix L p.1)ᴴ
      = -((-Complex.I * p.2) • termMatrix L p.1) := by
    rw [Matrix.conjTranspose_smul, termMatrix, termMatrixL_hermitian, ← neg_smul]
    congr 1
    rw [hstar]
    ring
  have hcomm : Commute (-((-Complex.I * p.2) • termMatrix L p.1))
      ((-Complex.I * p.2) • termMatrix L p.1) := (Commute.refl _).neg_left
  unfold expFactor
  rw [← Matrix.exp_conjTranspose, hAH, ← Matrix.exp_add_of_commute ℂ _ _ hcomm,
    neg_add_cancel, NormedSpace.exp_zero]

/-- One Trotter step with real angles preserves the squared norm. -/
theorem vecNormSq_stepOnce (L : ℕ) (factors : List (WeightedTerm × ℂ))
    (hfac : ∀ p ∈ factors, p.2.im = 0) (v : Fin (2 ^ L) → ℂ) :
    vecNormSq (stepOnce L factors v) = vecNormSq v := by
  induction factors generalizing v with
  | nil => rfl
  | cons p rest ih =>
    have hstep : stepOnce L (p :: rest) v = stepOnce L rest ((expFactor L p).mulVec v) :=
      List.foldl_cons _ _
    rw [hstep, ih (fun q hq => hfac q (List.mem_cons_of_mem _ hq)),
      vecNormSq_mulVec _ (expFactor_unitary L p (hfac p (List.mem_cons_self _ _))) v]

/-- Iterated Trotter steps with real angles preserve the squared norm. -/
theorem vecNormSq_iterate (L : ℕ) (factors : List (WeightedTerm × ℂ))
    (hfac : ∀ p ∈ factors, p.2.im = 0) (v : Fin (2 ^ L) → ℂ) (k : ℕ) :
    vecNormSq ((stepOnce L factors)^[k] v) = vecNormSq v := by
  induction k generalizing v with
  | zero => rfl
  | succ k ih =>
    rw [Function.iterate_succ_apply, ih, vecNormSq_stepOnce L factors hfac]

/-- The squared list norm as a sum over positions. -/
theorem listNormSq_eq_sum (l : List ℂ) :
    ∀ n, l.length = n → ∑ i : Fin n, Complex.normSq (l.getD i 0) = listNormSq l := by
  induction l with
  | nil =>
    intro n hn
    subst hn
    simp [listNormSq]
  | cons a l ih =>
    intro n hn
    subst hn
    simp only [List.length_cons]
    rw [Fin.sum_univ_succ]
    simp only [Fin.val_zero, Fin.val_succ, List.getD_cons_zero, List.getD_cons_succ]
    rw [ih l.length rfl]
    simp [listNormSq]

/-- Reading a list as a vector preserves the squared norm. -/
theorem vecNormSq_toVec (L : ℕ) (l : List ℂ) (hl : l.length = 2 ^ L) :
    vecNormSq (toVec L l) = listNormSq l := by
  unfold vecNormSq toVec
  exact listNormSq_eq_sum l (2 ^ L) hl

/-- Writing a vector out as a list preserves the squared norm. -/
theorem listNormSq_ofFn {n : ℕ} (w : Fin n → ℂ) :
    listNormSq (List.ofFn w) = vecNormSq w := by
  simp [listNormSq, vecNormSq, List.map_ofFn, List.sum_ofFn, Function.comp]

/-- Unfolding of a successful run of `evolve`. -/
theorem evolve_eq_ok (prob : EvolutionProblem) (num_steps : ℤ) (order : ℕ)
    (hpos : 0 < num_steps)
    (hdim : prob.initial_state.length = 2 ^ prob.hamiltonian.num_sites)
    (factors : List (WeightedTerm × ℂ))
    (hs : synthesizeStep prob.hamiltonian.terms
      (prob.total_time / ((num_steps : ℤ) : ℝ)) order = .ok factors) :
    evolve prob num_steps order = .ok
      { final_state := List.ofFn ((stepOnce prob.hamiltonian.num_sites factors)^[num_steps.toNat]
          (toVec prob.hamiltonian.num_sites prob.initial_state))
        recorded := (List.range (num_steps.toNat + 1)).map fun k =>
          List.ofFn ((stepOnce prob.hamiltonian.num_sites factors)^[k]
            (toVec prob.hamiltonian.num_sites prob.initial_state)) } := by
  unfold evolve
  rw [if_neg (by omega), if_neg (by simp [hdim]), hs]

/-- Inversion of a successful run of `evolve`. -/
theorem evolve_ok_inv (prob : EvolutionProblem) (num_steps : ℤ) (order : ℕ)
    (r : EvolutionResult) (hok : evolve prob num_steps order = .ok r) :
    0 < num_steps ∧
    prob.initial_state.length = 2 ^ prob.hamiltonian.num_sites ∧
    ∃ factors, synthesizeStep prob.hamiltonian.terms
        (prob.total_time / ((num_steps : ℤ) : ℝ)) order = .ok factors ∧
      r.final_state = List.ofFn ((stepOnce prob.hamiltonian.num_sites factors)^[num_steps.toNat]
        (toVec prob.hamiltonian.num_sites prob.initial_state)) ∧
      r.recorded = (List.range (num_steps.toNat + 1)).map fun k =>
        List.ofFn ((stepOnce prob.hamiltonian.num_sites factors)^[k]
          (toVec prob.hamiltonian.num_sites prob.initial_state)) := by
  unfold evolve at hok
  by_cases h1 : num_steps ≤ 0
  · rw [if_pos h1] at hok
    simp at hok
  · rw [if_neg h1] at hok
    by_cases h2 : prob.initial_state.length ≠ 2 ^ prob.hamiltonian.num_sites
    · rw [if_pos h2] at hok
      simp at hok
    · rw [if_neg h2] at hok
      rcases hs : synthesizeStep prob.hamiltonian.terms
          (prob.total_time / ((num_steps : ℤ) : ℝ)) order with e | factors
      · rw [hs] at hok
        simp at hok
      · rw [hs] at hok
        refine ⟨by omega, by omega, factors, rfl, ?_, ?_⟩
        · injection hok with h'
          rw [← h']
        · injection hok with h'
          rw [← h']

/-! ## Claim C4 -/

/-- C4: for every (Hermitian, i.e. real-coefficient) Hamiltonian, normalized
initial state, step count and order, every state recorded by a successful
`evolve` run, including the final state, has norm 1 within tolerance `1e-9`:
every evolution step is norm-preserving. -/
theorem evolve_preserves_norm (prob : EvolutionProblem) (num_steps : ℤ) (order : ℕ)
    (r : EvolutionResult)
    (hterms : ∀ t ∈ prob.hamiltonian.terms, t.coeff.im = 0)
    (hnorm : listNormSq prob.initial_state = 1)
    (hok : evolve prob num_steps order = .ok r) :
    (∀ s ∈ r.recorded, |Real.sqrt (listNormSq s) - 1| ≤ 1e-9) ∧
      |Real.sqrt (listNormSq r.final_state) - 1| ≤ 1e-9 := by
  obtain ⟨hpos, hdim, factors, hs, hfin, hrec⟩ := evolve_ok_inv prob num_steps order r hok
  have hfac : ∀ p ∈ factors, p.2.im = 0 := by
    intro p hp
    obtain ⟨hmem, x, hx, -⟩ := synthesizeStep_factors prob.hamiltonian.terms order _ factors hs p hp
    rw [hx, Complex.mul_im]
    simp [hterms p.1 hmem]
  have hone : ∀ k, listNormSq (List.ofFn ((stepOnce prob.hamiltonian.num_sites factors)^[k]
      (toVec prob.hamiltonian.num_sites prob.initial_state))) = 1 := by
    intro k
    rw [listNormSq_ofFn, vecNormSq_iterate _ _ hfac, vecNormSq_toVec _ _ hdim, hnorm]
  have habs : ∀ s ∈ r.recorded, |Real.sqrt (listNormSq s) - 1| ≤ 1e-9 := by
    intro s hsmem
    rw [hrec] at hsmem
    obtain ⟨k, -, rfl⟩ := List.mem_map.1 hsmem
    rw [hone k]
    norm_num
  refine ⟨habs, ?_⟩
  rw [hfin, hone num_steps.toNat]
  norm_num

/-- Witness for C4: the empty Hamiltonian on zero sites, unit initial state,
one step of order 1. -/
theorem evolve_preserves_norm_witness :
    evolve probNorm 1 1 = .ok resNorm ∧ [(1 : ℂ)] ∈ resNorm.recorded ∧
      |Real.sqrt (listNormSq [(1 : ℂ)]) - 1| ≤ 1e-9 := by
  have hok : evolve probNorm 1 1 = .ok resNorm := by
    have h := evolve_eq_ok probNorm 1 1 (by norm_num) (by simp [probNorm]) []
      (by simp [probNorm, synthesizeStep])
    rw [h]
    rfl
  refine ⟨hok, ?_, ?_⟩
  · simp [resNorm]
  · exact (evolve_preserves_norm probNorm 1 1 resNorm (by simp [probNorm])
      (by simp [probNorm, listNormSq]) hok).1 [(1 : ℂ)] (by simp [resNorm])

/-- A Trotter step all of whose angles are zero is the identity. -/
theorem stepOnce_id (L : ℕ) (factors : List (WeightedTerm × ℂ))
    (hzero : ∀ p ∈ factors, p.2 = 0) (v : Fin (2 ^ L) → ℂ) :
    stepOnce L factors v = v := by
  induction factors generalizing v with
  | nil => rfl
  | cons p rest ih =>
    rw [stepOnce, List.foldl_cons]
    have hp0 : p.2 = 0 := hzero p (List.mem_cons_self _ _)
    have hfact : expFactor L p = 1 := by
      unfold expFactor
      rw [hp0, show (-Complex.I * (0 : ℂ)) = 0 by ring, zero_smul, NormedSpace.exp_zero]
    rw [hfact, Matrix.one_mulVec]
    exact ih (fun q hq => hzero q (List.mem_cons_of_mem _ hq)) v

/-! ## Claim C6 -/

/-- C6: for every Hamiltonian, every initial state of the right dimension and
every order, `evolve` with `num_steps = 1` and `total_time = 0` acts as the
identity: whatever it returns has the initial state as final state, and for
every supported order it does return, with the initial state unchanged. -/
theorem evolve_zero_time_identity (prob : EvolutionProblem)
    (hdim : prob.initial_state.length = 2 ^ prob.hamiltonian.num_sites)
    (htime : prob.total_time = 0) :
    (∀ order r, evolve prob 1 order = .ok r → r.final_state = prob.initial_state) ∧
    (∀ order, SupportedOrder order →
      ∃ r, evolve prob 1 order = .ok r ∧ r.final_state = prob.initial_state) := by
  have hdt : prob.total_time / ((1 : ℤ) : ℝ) = 0 := by
    rw [htime]
    norm_num
  have hmain : ∀ order factors,
      synthesizeStep prob.hamiltonian.terms 0 order = .ok factors →
      List.ofFn ((stepOnce prob.hamiltonian.num_sites factors)^[(1 : ℤ).toNat]
        (toVec prob.hamiltonian.num_sites prob.initial_state)) = prob.initial_state := by
    intro order factors hs
    have hzero : ∀ p ∈ factors, p.2 = 0 := by
      intro p hp
      obtain ⟨-, x, hx, hx0⟩ := synthesizeStep_factors prob.hamiltonian.terms order 0 factors hs p hp
      rw [hx, hx0 rfl]
      simp
    have hstep : ∀ v, stepOnce prob.hamiltonian.num_sites factors v = v :=
      stepOnce_id prob.hamiltonian.num_sites factors hzero
    have hofn : List.ofFn (toVec prob.hamiltonian.num_sites prob.initial_state)
        = prob.initial_state := by
      refine List.ext_getElem (by simp [hdim]) ?_
      intro i h1 h2
      simp [toVec, List.getD_eq_getElem?_getD, List.getElem?_eq_getElem h2]
    rw [Int.toNat_one, Function.iterate_one, hstep, hofn]
  constructor
  · intro order r hok
    obtain ⟨-, -, factors, hs, hfin, -⟩ := evolve_ok_inv prob 1 order r hok
    rw [hdt] at hs
    rw [hfin]
    exact hmain order factors hs
  · intro order hord
    obtain ⟨factors, hs⟩ := synthesizeStep_ok prob.hamiltonian.terms order hord 0
    have hs' : synthesizeStep prob.hamiltonian.terms
        (prob.total_time / ((1 : ℤ) : ℝ)) order = .ok factors := by
      rw [hdt]
      exact hs
    refine ⟨_, evolve_eq_ok prob 1 order (by norm_num) hdim factors hs', ?_⟩
    exact hmain order factors hs

/-- Witness for C6: zero-site Hamiltonian, unit state, order 2, total time 0. -/
theorem evolve_zero_time_identity_witness :
    ∃ r, evolve probZero 1 2 = .ok r ∧ r.final_state = [(1 : ℂ)] :=
  (evolve_zero_time_identity probZero (by simp [probZero]) rfl).2 2 (by decide)

/-! ## Claim C3 -/

/-- Applying a sequence of matrix exponentials of pairwise-commuting matrices
equals applying the exponential of their sum. -/
theorem foldl_exp_mulVec {n : ℕ} (As : List (Matrix (Fin n) (Fin n) ℂ))
    (hcomm : ∀ A ∈ As, ∀ B ∈ As, Commute A B) (v : Fin n → ℂ) :
    As.foldl (fun w A => (NormedSpace.exp ℂ A).mulVec w) v
      = (NormedSpace.exp ℂ As.sum).mulVec v := by
  induction As generalizing v with
  | nil => rw [List.foldl_nil, List.sum_nil, NormedSpace.exp_zero, Matrix.one_mulVec]
  | cons A rest ih =>
    rw [List.foldl_cons, List.sum_cons,
      ih (fun X hX Y hY => hcomm X (List.mem_cons_of_mem _ hX) Y (List.mem_cons_of_mem _ hY)),
      Matrix.mulVec_mulVec]
    have hAc : Commute rest.sum A :=
      (Commute.list_sum_right A rest fun B hB =>
        hcomm A (List.mem_cons_self _ _) B (List.mem_cons_of_mem _ hB)).symm
    rw [← Matrix.exp_add_of_commute ℂ rest.sum A hAc, add_comm rest.sum A]

/-- C3: for every Hamiltonian whose terms pairwise commute, every initial state
of the right dimension and every total time, order-1 evolution with a single
step returns exactly the exact state `expm(-i*t*H_dense) * initial_state`. -/
theorem evolve_commuting_matches_exact (prob : EvolutionProblem)
    (hdim : prob.initial_state.length = 2 ^ prob.hamiltonian.num_sites)
    (hcomm : ∀ t1 ∈ prob.hamiltonian.terms, ∀ t2 ∈ prob.hamiltonian.terms,
      Commute (termMatrix prob.hamiltonian.num_sites t1)
        (termMatrix prob.hamiltonian.num_sites t2)) :
    ∃ r, evolve prob 1 1 = .ok r ∧
      r.final_state = List.ofFn (exact_state prob prob.total_time) := by
  have hs : synthesizeStep prob.hamiltonian.terms (prob.total_time / ((1 : ℤ) : ℝ)) 1 =
      .ok (prob.hamiltonian.terms.map fun t =>
        (t, t.coeff * ((prob.total_time / ((1 : ℤ) : ℝ) : ℝ) : ℂ))) := rfl
  refine ⟨_, evolve_eq_ok prob 1 1 one_pos hdim _ hs, ?_⟩
  have hdt : prob.total_time / ((1 : ℤ) : ℝ) = prob.total_time := by norm_num
  rw [hdt]
  rw [Int.toNat_one, Function.iterate_one]
  set L := prob.hamiltonian.num_sites with hL
  set ts := prob.hamiltonian.terms with hts
  set v0 := toVec L prob.initial_state with hv0
  set Tc : ℂ := ((prob.total_time : ℝ) : ℂ) with hTc
  have hfold : stepOnce L (ts.map fun t => (t, t.coeff * Tc)) v0
      = (ts.map fun t => (-Complex.I * (t.coeff * Tc)) • termMatrix L t).foldl
          (fun w A => (NormedSpace.exp ℂ A).mulVec w) v0 := by
    rw [stepOnce, List.foldl_map, List.foldl_map]
    rfl
  have hAcomm : ∀ A ∈ ts.map fun t => (-Complex.I * (t.coeff * Tc)) • termMatrix L t,
      ∀ B ∈ ts.map fun t => (-Complex.I * (t.coeff * Tc)) • termMatrix L t,
      Commute A B := by
    intro A hA B hB
    obtain ⟨t1, ht1, rfl⟩ := List.mem_map.1 hA
    obtain ⟨t2, ht2, rfl⟩ := List.mem_map.1 hB
    exact ((hcomm t1 ht1 t2 ht2).smul_left _).smul_right _
  have hsum : (ts.map fun t => (-Complex.I * (t.coeff * Tc)) • termMatrix L t).sum
      = (-Complex.I * Tc) • to_dense_matrix prob.hamiltonian := by
    rw [to_dense_matrix, termsSum, List.smul_sum, List.map_map]
    refine congrArg List.sum (List.map_congr_left fun t ht => ?_)
    show (-Complex.I * (t.coeff * Tc)) • termMatrix L t
      = (-Complex.I * Tc) • t.coeff • termMatrix L t
    rw [smul_smul]
    congr 1
    ring
  rw [hfold, foldl_exp_mulVec _ hAcomm, hsum, exact_state]

/-- Witness for C3: a single-term Hamiltonian (trivially commuting), unit
one-dimensional state, total time 1. -/
theorem evolve_commuting_matches_exact_witness :
    ∃ r, evolve probComm 1 1 = .ok r ∧
      r.final_state = List.ofFn (exact_state probComm probComm.total_time) := by
  refine evolve_commuting_matches_exact probComm (by simp [probComm]) ?_
  intro t1 h1 t2 h2
  simp only [probComm, List.mem_singleton] at h1 h2
  subst h1
  subst h2
  exact Commute.refl _

/-! ## Claim C7 -/

/-- Unfolding of the denoted operator on a cons cell. -/
theorem termsSum_cons (L : ℕ) (t : WeightedTerm) (l : List WeightedTerm) :
    termsSum L (t :: l) = t.coeff • termMatrix L t + termsSum L l := by
  rw [termsSum, List.map_cons, List.sum_cons]
  rfl

/-- Two terms with equal grouping keys and sorted index lists denote the same
matrix. -/
theorem termMatrix_eq_of_key (L : ℕ) (u t : WeightedTerm)
    (hk : termKey u = termKey t)
    (hu : u.indices.Sorted (· ≤ ·)) (ht : t.indices.Sorted (· ≤ ·)) :
    termMatrix L u = termMatrix L t := by
  unfold termKey at hk
  rw [hu.insertionSort_eq, ht.insertionSort_eq] at hk
  simp only [Prod.mk.injEq] at hk
  obtain ⟨h1, h2⟩ := hk
  rw [termMatrix, termMatrix, h1, h2]

/-- Splitting the denoted operator along a Boolean filter. -/
theorem termsSum_filter_partition (L : ℕ) (l : List WeightedTerm) (p : WeightedTerm → Bool) :
    termsSum L l = termsSum L (l.filter p) + termsSum L (l.filter fun t => !(p t)) := by
  induction l with
  | nil => simp [termsSum]
  | cons t rest ih =>
    by_cases hp : p t
    · rw [List.filter_cons_of_pos hp, List.filter_cons_of_neg (by simp [hp]),
        termsSum_cons, termsSum_cons, ih, add_assoc]
    · rw [List.filter_cons_of_neg (by simp [hp]),
        List.filter_cons_of_pos (by simp [hp]), termsSum_cons, termsSum_cons, ih]
      abel

/-- The denoted operator of a list of terms sharing one matrix. -/
theorem termsSum_const (L : ℕ) (M : Matrix (Fin (2 ^ L)) (Fin (2 ^ L)) ℂ)
    (l : List WeightedTerm) (hall : ∀ u ∈ l, termMatrix L u = M) :
    termsSum L l = ((l.map WeightedTerm.coeff).sum) • M := by
  induction l with
  | nil => simp [termsSum]
  | cons t rest ih =>
    rw [termsSum_cons, ih (fun u hu => hall u (List.mem_cons_of_mem _ hu)),
      hall t (List.mem_cons_self _ _), List.map_cons, List.sum_cons, add_smul]

/-- The spec-modelled `simplify` preserves the denoted operator whenever every
term's index list is sorted. -/
theorem simplifyTerms_sum (L : ℕ) :
    ∀ n (l : List WeightedTerm), l.length ≤ n →
      (∀ t ∈ l, List.Sorted (· ≤ ·) t.indices) →
      termsSum L (simplifyTerms l) = termsSum L l := by
  intro n
  induction n with
  | zero =>
    intro l hl _
    have hnil : l = [] := List.length_eq_zero.1 (by omega)
    subst hnil
    rw [simplifyTerms]
  | succ n ih =>
    intro l hl hsort
    match l with
    | [] => rw [simplifyTerms]
    | t :: rest =>
      rw [simplifyTerms]
      have hlen : (rest.filter fun u => !(termKey u == termKey t)).length ≤ n := by
        have h1 := List.length_filter_le (fun u => !(termKey u == termKey t)) rest
        have h2 : rest.length ≤ n := by simpa using hl
        omega
      have hsort' : ∀ u ∈ rest.filter fun u => !(termKey u == termKey t),
          List.Sorted (· ≤ ·) u.indices := fun u hu =>
        hsort u (List.mem_cons_of_mem _ (List.mem_of_mem_filter hu))
      have hmatch : termsSum L (rest.filter fun u => termKey u == termKey t)
          = (((rest.filter fun u => termKey u == termKey t).map WeightedTerm.coeff).sum)
            • termMatrix L t := by
        apply termsSum_const
        intro u hu
        have hk : termKey u = termKey t := by
          have := List.of_mem_filter hu
          simpa using this
        exact termMatrix_eq_of_key L u t hk
          (hsort u (List.mem_cons_of_mem _ (List.mem_of_mem_filter hu)))
          (hsort t (List.mem_cons_self _ _))
      have hsplit : termsSum L rest
          = termsSum L (rest.filter fun u => termKey u == termKey t)
            + termsSum L (rest.filter fun u => !(termKey u == termKey t)) :=
        termsSum_filter_partition L rest _
      by_cases h0 : t.coeff + ((rest.filter fun u => termKey u == termKey t).map
          WeightedTerm.coeff).sum = 0
      · rw [if_pos h0, ih _ hlen hsort', termsSum_cons, hsplit, hmatch,
          ← add_assoc, ← add_smul, h0, zero_smul, zero_add]
      · rw [if_neg h0, termsSum_cons, ih _ hlen hsort', termsSum_cons, hsplit, hmatch,
          ← add_assoc, ← add_smul]
        have hM : termMatrix L (⟨(termKey t).2, (termKey t).1,
            t.coeff + ((rest.filter fun u => termKey u == termKey t).map
              WeightedTerm.coeff).sum⟩ : WeightedTerm) = termMatrix L t := by
          show termMatrixL L (termKey t).2 (termKey t).1 = termMatrixL L t.label t.indices
          unfold termKey
          rw [(hsort t (List.mem_cons_self _ _)).insertionSort_eq]
        rw [hM]

/-- C7 (amended): for every Hamiltonian whose terms' index lists are sorted,
`simplify` (grouping by sorted index set and label, summing coefficients,
dropping zero groups) denotes the same operator: `to_dense_matrix` of the
simplified Hamiltonian equals `to_dense_matrix` of the original. -/
theorem simplify_preserves_operator (H : Hamiltonian)
    (hsorted : ∀ t ∈ H.terms, List.Sorted (· ≤ ·) t.indices) :
    to_dense_matrix (simplify H) = to_dense_matrix H :=
  simplifyTerms_sum H.num_sites H.terms.length H.terms le_rfl hsorted

/-- Witness for C7 at a concrete sorted two-term Hamiltonian. -/
theorem simplify_preserves_operator_witness :
    to_dense_matrix (simplify ⟨2, [wtB, wtC]⟩) = to_dense_matrix ⟨2, [wtB, wtC]⟩ := by
  refine simplify_preserves_operator ⟨2, [wtB, wtC]⟩ ?_
  intro t ht
  simp only [List.mem_cons, List.mem_singleton, List.not_mem_nil, or_false] at ht
  rcases ht with rfl | rfl
  · show List.Sorted (· ≤ ·) [0, 1]
    decide
  · show List.Sorted (· ≤ ·) [1]
    decide

/-- Counterexample for C7 as frozen: two terms acting on the same sorted index
set `{0, 1}` with the same label `XZ` but opposite index order denote different
operators (`X_0 Z_1` and `X_1 Z_0`), yet the spec's grouping key merges them,
changing the denoted operator. -/
theorem simplify_unsorted_cex :
    to_dense_matrix (simplify Hunsorted) ≠ to_dense_matrix Hunsorted := by
  have hsim : simplifyTerms Hunsorted.terms
      = [⟨[PauliSym.pX, PauliSym.pZ], [0, 1], 2⟩] := by
    show simplifyTerms [⟨[PauliSym.pX, PauliSym.pZ], [0, 1], 1⟩,
      ⟨[PauliSym.pX, PauliSym.pZ], [1, 0], 1⟩] = _
    rw [simplifyTerms]
    norm_num [termKey, List.insertionSort, List.orderedInsert, List.filter]
    rw [simplifyTerms]
  have hA : termMatrixL 2 [PauliSym.pX, PauliSym.pZ] [0, 1]
      (0 : Fin (2 ^ 2)) (1 : Fin (2 ^ 2)) = 1 := by
    show (∏ s ∈ Finset.range 2, _) = 1
    rw [Finset.prod_range_succ, Finset.prod_range_succ, Finset.prod_range_zero, one_mul]
    norm_num [siteOp, siteBit, pauliMat]
  have hB : termMatrixL 2 [PauliSym.pX, PauliSym.pZ] [1, 0]
      (0 : Fin (2 ^ 2)) (1 : Fin (2 ^ 2)) = 0 := by
    show (∏ s ∈ Finset.range 2, _) = 0
    rw [Finset.prod_range_succ, Finset.prod_range_succ, Finset.prod_range_zero, one_mul]
    norm_num [siteOp, siteBit, pauliMat]
  intro hEq
  have h01 := congrFun (congrFun hEq (0 : Fin (2 ^ 2))) (1 : Fin (2 ^ 2))
  have hLHS : to_dense_matrix (simplify Hunsorted) (0 : Fin (2 ^ 2)) (1 : Fin (2 ^ 2)) = 2 := by
    show termsSum 2 (simplifyTerms Hunsorted.terms) (0 : Fin (2 ^ 2)) (1 : Fin (2 ^ 2)) = 2
    rw [hsim]
    simp [termsSum, termMatrix, hA]
  have hRHS : to_dense_matrix Hunsorted (0 : Fin (2 ^ 2)) (1 : Fin (2 ^ 2)) = 1 := by
    show termsSum 2 Hunsorted.terms (0 : Fin (2 ^ 2)) (1 : Fin (2 ^ 2)) = 1
    show termsSum 2 [⟨[PauliSym.pX, PauliSym.pZ], [0, 1], 1⟩,
      ⟨[PauliSym.pX, PauliSym.pZ], [1, 0], 1⟩] (0 : Fin (2 ^ 2)) (1 : Fin (2 ^ 2)) = 1
    simp [termsSum, termMatrix, hA, hB]
  rw [hLHS, hRHS] at h01
  norm_num at h01

/-! ## Claim C9 -/

/-- simplifyTerms on a head term whose key occurs nowhere in the tail. -/
theorem simplifyTerms_cons_distinct (t : WeightedTerm) (l : List WeightedTerm)
    (hk : ∀ u ∈ l, termKey u ≠ termKey t) :
    simplifyTerms (t :: l) = if t.coeff = 0 then simplifyTerms l
      else ⟨(termKey t).2, (termKey t).1, t.coeff⟩ :: simplifyTerms l := by
  rw [simplifyTerms]
  have hf1 : l.filter (fun u => termKey u == termKey t) = [] := by
    rw [List.filter_eq_nil_iff]
    intro u hu
    simpa using hk u hu
  have hf2 : l.filter (fun u => !(termKey u == termKey t)) = l := by
    rw [List.filter_eq_self]
    intro u hu
    simpa using hk u hu
  rw [hf1, hf2, List.map_nil, List.sum_nil, add_zero]

/-- simplifyTerms on pairwise-distinct keys keeps exactly the terms with
nonzero coefficient, normalizing each index list to its sorted form. -/
theorem simplifyTerms_distinct (l : List WeightedTerm)
    (hpair : l.Pairwise fun a b => termKey a ≠ termKey b) :
    simplifyTerms l = (l.filter fun t => !(decide (t.coeff = 0))).map
      fun t => ⟨(termKey t).2, (termKey t).1, t.coeff⟩ := by
  induction l with
  | nil => rw [simplifyTerms]; rfl
  | cons t rest ih =>
    obtain ⟨hhead, htail⟩ := List.pairwise_cons.1 hpair
    rw [simplifyTerms_cons_distinct t rest (fun u hu => (hhead u hu).symm), ih htail]
    by_cases h0 : t.coeff = 0
    · rw [if_pos h0, List.filter_cons_of_neg (by simp [h0])]
    · rw [if_neg h0, List.filter_cons_of_pos (by simp [h0]), List.map_cons]

/-- Grouping key of a nearest-neighbour `ZZ` term. -/
theorem termKey_ZZ (i : ℕ) (c : ℂ) :
    termKey ⟨[PauliSym.pZ, PauliSym.pZ], [i, i + 1], c⟩
      = ([i, i + 1], [PauliSym.pZ, PauliSym.pZ]) := by
  unfold termKey
  rw [List.Sorted.insertionSort_eq]
  simp [List.sorted_cons]

/-- Grouping key of a single-site term. -/
theorem termKey_single (p : PauliSym) (i : ℕ) (c : ℂ) :
    termKey ⟨[p], [i], c⟩ = ([i], [p]) := rfl

/-- The terms built by `get_hamiltonian` have pairwise-distinct grouping keys. -/
theorem get_hamiltonian_keys_distinct (L : ℕ) (a b c : ℂ) :
    (((List.range (L - 1)).map fun i =>
        (⟨[PauliSym.pZ, PauliSym.pZ], [i, i + 1], a⟩ : WeightedTerm)) ++
      ((List.range L).map fun i => (⟨[PauliSym.pZ], [i], b⟩ : WeightedTerm)) ++
      ((List.range L).map fun i => (⟨[PauliSym.pX], [i], c⟩ : WeightedTerm))).Pairwise
      (fun s t => termKey s ≠ termKey t) := by
  refine List.pairwise_append.2 ⟨List.pairwise_append.2 ⟨?_, ?_, ?_⟩, ?_, ?_⟩
  · refine List.pairwise_map.2 ?_
    refine (List.pairwise_lt_range _).imp ?_
    intro i j hij
    rw [termKey_ZZ, termKey_ZZ]
    simp only [ne_eq, Prod.mk.injEq, List.cons.injEq, not_and]
    omega
  · refine List.pairwise_map.2 ?_
    refine (List.pairwise_lt_range _).imp ?_
    intro i j hij
    rw [termKey_single, termKey_single]
    simp only [ne_eq, Prod.mk.injEq, List.cons.injEq, not_and]
    omega
  · intro s hs t ht
    obtain ⟨i, -, rfl⟩ := List.mem_map.1 hs
    obtain ⟨j, -, rfl⟩ := List.mem_map.1 ht
    rw [termKey_ZZ, termKey_single]
    simp
  · refine List.pairwise_map.2 ?_
    refine (List.pairwise_lt_range _).imp ?_
    intro i j hij
    rw [termKey_single, termKey_single]
    simp only [ne_eq, Prod.mk.injEq, List.cons.injEq, not_and]
    omega
  · intro s hs t ht
    obtain ⟨j, -, rfl⟩ := List.mem_map.1 ht
    rcases List.mem_append.1 hs with hs | hs
    · obtain ⟨i, -, rfl⟩ := List.mem_map.1 hs
      rw [termKey_ZZ, termKey_single]
      simp
    · obtain ⟨i, -, rfl⟩ := List.mem_map.1 hs
      rw [termKey_single, termKey_single]
      simp

/-- C9 (amended): for every number of sites `L ≥ 2` and all nonzero real `J`,
`h`, `get_hamiltonian(L, J, h, alpha=0)` returns exactly the `L-1` two-site
`ZZ` terms with coefficient `-J` followed by the `L` single-site `X` terms with
coefficient `-h`: the `Z` terms get coefficient `-h*sin(0) = 0` and are removed
by the final `simplify()`, leaving exactly `2L-1` terms. -/
theorem get_hamiltonian_alpha_zero (L : ℕ) (J hf : ℝ)
    (hL : 2 ≤ L) (hJ : J ≠ 0) (hh : hf ≠ 0) :
    (get_hamiltonian L J hf 0).terms =
      ((List.range (L - 1)).map fun i =>
        (⟨[PauliSym.pZ, PauliSym.pZ], [i, i + 1], ((-J : ℝ) : ℂ)⟩ : WeightedTerm)) ++
      ((List.range L).map fun i =>
        (⟨[PauliSym.pX], [i], ((-hf : ℝ) : ℂ)⟩ : WeightedTerm)) ∧
    (get_hamiltonian L J hf 0).terms.length = 2 * L - 1 := by
  have hmain : (get_hamiltonian L J hf 0).terms =
      ((List.range (L - 1)).map fun i =>
        (⟨[PauliSym.pZ, PauliSym.pZ], [i, i + 1], ((-J : ℝ) : ℂ)⟩ : WeightedTerm)) ++
      ((List.range L).map fun i =>
        (⟨[PauliSym.pX], [i], ((-hf : ℝ) : ℂ)⟩ : WeightedTerm)) := by
    have hterms : (get_hamiltonian L J hf 0).terms
        = simplifyTerms
          (((List.range (L - 1)).map fun i =>
              (⟨[PauliSym.pZ, PauliSym.pZ], [i, i + 1], ((-J : ℝ) : ℂ)⟩ : WeightedTerm)) ++
            ((List.range L).map fun i =>
              (⟨[PauliSym.pZ], [i], ((0 : ℝ) : ℂ)⟩ : WeightedTerm)) ++
            ((List.range L).map fun i =>
              (⟨[PauliSym.pX], [i], ((-hf : ℝ) : ℂ)⟩ : WeightedTerm))) := by
      show simplifyTerms _ = simplifyTerms _
      congr 2
      simp only [Real.sin_zero, Real.cos_zero, mul_zero, mul_one]
    rw [hterms, simplifyTerms_distinct _ (get_hamiltonian_keys_distinct L _ _ _),
      List.filter_append, List.filter_append,
      List.filter_map, List.filter_map, List.filter_map]
    simp [hJ, hh, termKey_ZZ, termKey_single, List.map_map, Function.comp_def]
  refine ⟨hmain, ?_⟩
  rw [hmain]
  simp only [List.length_append, List.length_map, List.length_range]
  omega

/-- Witness for C9 at `L = 2`, `J = 1`, `h = 1`. -/
theorem get_hamiltonian_alpha_zero_witness :
    (get_hamiltonian 2 1 1 0).terms =
      ((List.range (2 - 1)).map fun i =>
        (⟨[PauliSym.pZ, PauliSym.pZ], [i, i + 1], ((-(1 : ℝ) : ℝ) : ℂ)⟩ : WeightedTerm)) ++
      ((List.range 2).map fun i =>
        (⟨[PauliSym.pX], [i], ((-(1 : ℝ) : ℝ) : ℂ)⟩ : WeightedTerm)) ∧
    (get_hamiltonian 2 1 1 0).terms.length = 2 * 2 - 1 :=
  get_hamiltonian_alpha_zero 2 1 1 (by norm_num) (by norm_num) (by norm_num)

/-- Counterexample for C9 as frozen: at `J = 0` the `ZZ` terms also get
coefficient `-J = 0` and are dropped by `simplify()`, so the result has 2
terms, not `2L-1 = 3`. -/
theorem get_hamiltonian_zero_J_cex :
    (get_hamiltonian 2 0 1 0).terms.length = 2 ∧ (2 : ℕ) ≠ 2 * 2 - 1 := by
  refine ⟨?_, by decide⟩
  have hterms : (get_hamiltonian 2 0 1 0).terms
      = simplifyTerms
        (((List.range (2 - 1)).map fun i =>
            (⟨[PauliSym.pZ, PauliSym.pZ], [i, i + 1], ((-(0 : ℝ) : ℝ) : ℂ)⟩ : WeightedTerm)) ++
          ((List.range 2).map fun i =>
            (⟨[PauliSym.pZ], [i], ((0 : ℝ) : ℂ)⟩ : WeightedTerm)) ++
          ((List.range 2).map fun i =>
            (⟨[PauliSym.pX], [i], ((-(1 : ℝ) : ℝ) : ℂ)⟩ : WeightedTerm))) := by
    show simplifyTerms _ = simplifyTerms _
    congr 2
    simp only [Real.sin_zero, Real.cos_zero, mul_zero, mul_one]
  rw [hterms, simplifyTerms_distinct _ (get_hamiltonian_keys_distinct 2 _ _ _),
    List.filter_append, List.filter_append,
    List.filter_map, List.filter_map, List.filter_map]
  simp [List.map_map, Function.comp_def, termKey_single]

/-! ## Claim C8 -/

/-- The simplified terms of the longitudinal-field Hamiltonian: the `X` terms
get coefficient `-h*cos(pi/2) = 0` and are dropped; the `ZZ` and `Z` terms
remain. -/
theorem get_hamiltonian_longitudinal_terms :
    (get_hamiltonian 2 0.2 1 (Real.pi / 2)).terms =
    [⟨[PauliSym.pZ, PauliSym.pZ], [0, 1], ((-(0.2 : ℝ) : ℝ) : ℂ)⟩,
     ⟨[PauliSym.pZ], [0], ((-(1 : ℝ) : ℝ) : ℂ)⟩,
     ⟨[PauliSym.pZ], [1], ((-(1 : ℝ) : ℝ) : ℂ)⟩] := by
  have h1 : (get_hamiltonian 2 0.2 1 (Real.pi / 2)).terms
      = simplifyTerms
        (((List.range (2 - 1)).map fun i =>
            (⟨[PauliSym.pZ, PauliSym.pZ], [i, i + 1], ((-(0.2 : ℝ) : ℝ) : ℂ)⟩ : WeightedTerm)) ++
          ((List.range 2).map fun i =>
            (⟨[PauliSym.pZ], [i], ((-(1 : ℝ) : ℝ) : ℂ)⟩ : WeightedTerm)) ++
          ((List.range 2).map fun i =>
            (⟨[PauliSym.pX], [i], ((0 : ℝ) : ℂ)⟩ : WeightedTerm))) := by
    show simplifyTerms _ = simplifyTerms _
    congr 2
    simp only [Real.sin_pi_div_two, Real.cos_pi_div_two, mul_zero, mul_one]
  have h02 : ((-(0.2 : ℝ) : ℝ) : ℂ) ≠ 0 := by
    norm_num
  have h11 : ((-(1 : ℝ) : ℝ) : ℂ) ≠ 0 := by
    norm_num
  rw [h1, simplifyTerms_distinct _ (get_hamiltonian_keys_distinct 2 _ _ _),
    List.filter_append, List.filter_append,
    List.filter_map, List.filter_map, List.filter_map]
  simp [h02, h11, termKey_ZZ, termKey_single, List.map_map, Function.comp_def,
    List.range_succ]
  norm_num [List.filter]

/-- The Kronecker expansion of the `ZZ` coupling on two sites is diagonal. -/
theorem termMatrix_ZZ_diag (c : ℂ) : termMatrix 2 ⟨[PauliSym.pZ, PauliSym.pZ], [0, 1], c⟩
    = Matrix.diagonal ![1, -1, -1, 1] := by
  ext i j
  fin_cases i <;> fin_cases j <;>
    norm_num [termMatrix, termMatrixL, siteOp, siteBit, pauliMat, Finset.prod_range_succ,
      Matrix.diagonal, Fin.ext_iff]

/-- The Kronecker expansion of `Z` on site 0 of two sites is diagonal. -/
theorem termMatrix_Z0_diag (c : ℂ) : termMatrix 2 ⟨[PauliSym.pZ], [0], c⟩
    = Matrix.diagonal ![1, -1, 1, -1] := by
  ext i j
  fin_cases i <;> fin_cases j <;>
    norm_num [termMatrix, termMatrixL, siteOp, siteBit, pauliMat, Finset.prod_range_succ,
      Matrix.diagonal, Fin.ext_iff]

/-- The Kronecker expansion of `Z` on site 1 of two sites is diagonal. -/
theorem termMatrix_Z1_diag (c : ℂ) : termMatrix 2 ⟨[PauliSym.pZ], [1], c⟩
    = Matrix.diagonal ![1, 1, -1, -1] := by
  ext i j
  fin_cases i <;> fin_cases j <;>
    norm_num [termMatrix, termMatrixL, siteOp, siteBit, pauliMat, Finset.prod_range_succ,
      Matrix.diagonal, Fin.ext_iff]

/-- The exponential factor of a term with diagonal matrix is the diagonal of
entrywise complex exponentials. -/
theorem expFactor_diag (θ : ℂ) (t : WeightedTerm) (d : Fin (2 ^ 2) → ℂ)
    (hd : termMatrix 2 t = Matrix.diagonal d) :
    expFactor 2 (t, θ) = Matrix.diagonal fun i => Complex.exp (-Complex.I * θ * d i) := by
  unfold expFactor
  show NormedSpace.exp ℂ ((-Complex.I * θ) • termMatrix 2 t) = _
  rw [hd, ← Matrix.diagonal_smul, Matrix.exp_diagonal]
  have hv : NormedSpace.exp ℂ ((-Complex.I * θ) • d)
      = fun i => Complex.exp (-Complex.I * θ * d i) := by
    funext i
    rw [Pi.coe_exp, Pi.smul_apply, smul_eq_mul, ← Complex.exp_eq_exp_ℂ, mul_assoc]
  rw [hv]

/-- Full evaluation of the longitudinal-field evolution: the basis state only
picks up the global phase `exp(-0.32*i)` (its energy 0.2 times the time 1.6). -/
theorem evolveFinalState_longitudinal :
    evolveFinalState probLong 1 1
    = [0, 0, Complex.exp (((-0.32 : ℝ) : ℂ) * Complex.I), 0] := by
  have hdim : probLong.initial_state.length = 2 ^ probLong.hamiltonian.num_sites := rfl
  have hs : synthesizeStep probLong.hamiltonian.terms (probLong.total_time / ((1 : ℤ) : ℝ)) 1
      = .ok (probLong.hamiltonian.terms.map fun t =>
          (t, t.coeff * ((probLong.total_time / ((1 : ℤ) : ℝ) : ℝ) : ℂ))) := rfl
  have hok := evolve_eq_ok probLong 1 1 one_pos hdim _ hs
  unfold evolveFinalState
  rw [hok]
  show List.ofFn ((stepOnce probLong.hamiltonian.num_sites
      (probLong.hamiltonian.terms.map fun t =>
        (t, t.coeff * ((probLong.total_time / ((1 : ℤ) : ℝ) : ℝ) : ℂ))))^[(1 : ℤ).toNat]
      (toVec probLong.hamiltonian.num_sites probLong.initial_state)) = _
  have hdt : probLong.total_time / ((1 : ℤ) : ℝ) = (1.6 : ℝ) := by
    show (1.6 : ℝ) / _ = _
    norm_num
  have htm : probLong.hamiltonian.terms =
      [⟨[PauliSym.pZ, PauliSym.pZ], [0, 1], ((-(0.2 : ℝ) : ℝ) : ℂ)⟩,
       ⟨[PauliSym.pZ], [0], ((-(1 : ℝ) : ℝ) : ℂ)⟩,
       ⟨[PauliSym.pZ], [1], ((-(1 : ℝ) : ℝ) : ℂ)⟩] := get_hamiltonian_longitudinal_terms
  rw [hdt, htm, Int.toNat_one, Function.iterate_one]
  simp only [List.map_cons, List.map_nil, stepOnce, List.foldl_cons, List.foldl_nil]
  show List.ofFn (Matrix.mulVec (expFactor 2 _)
      (Matrix.mulVec (expFactor 2 _)
        (Matrix.mulVec (expFactor 2 _) (toVec 2 _)))) = _
  rw [expFactor_diag _ _ _ (termMatrix_ZZ_diag _), expFactor_diag _ _ _ (termMatrix_Z0_diag _),
    expFactor_diag _ _ _ (termMatrix_Z1_diag _)]
  simp only [Matrix.mulVec_diagonal, List.ofFn_succ, List.ofFn_zero, toVec]
  simp only [Matrix.cons_val_zero, Matrix.cons_val_succ, probLong, Fin.val_succ, Fin.val_zero,
    List.getD_cons_zero, List.getD_cons_succ, mul_zero, mul_one, List.cons.injEq]
  refine ⟨trivial, trivial, ?_, trivial⟩
  rw [← Complex.exp_add, ← Complex.exp_add]
  congr 1
  norm_num [Complex.ext_iff, Complex.mul_re, Complex.mul_im, Complex.add_re, Complex.add_im]

/-- Counterexample for C8 as frozen: the evolved state differs from the
initial basis state by far more than `1e-3` in the third component (it picks
up the phase `exp(-0.32*i)`, and `|exp(-0.32*i) - 1| > 1e-3`). -/
theorem longitudinal_not_close_cex :
    evolveFinalState probLong 1 1 ≠ [] ∧
    1e-3 < Complex.abs ((evolveFinalState probLong 1 1).getD 2 0
      - probLong.initial_state.getD 2 0) := by
  constructor
  · rw [evolveFinalState_longitudinal]
    simp
  · rw [evolveFinalState_longitudinal]
    show 1e-3 < Complex.abs (Complex.exp (((-0.32 : ℝ) : ℂ) * Complex.I) - 1)
    have habs2 : Complex.abs (Complex.exp (((-0.32 : ℝ) : ℂ) * Complex.I) - 1) ^ 2
        = 2 - 2 * Real.cos 0.32 := by
      rw [Complex.sq_abs, Complex.exp_mul_I, ← Complex.ofReal_cos, ← Complex.ofReal_sin]
      have hre : ((Real.cos (-0.32 : ℝ) : ℂ) + (Real.sin (-0.32 : ℝ) : ℂ) * Complex.I - 1).re
          = Real.cos 0.32 - 1 := by
        simp [Real.cos_neg, Complex.cos_ofReal_re, Complex.sin_ofReal_re]
      have him : ((Real.cos (-0.32 : ℝ) : ℂ) + (Real.sin (-0.32 : ℝ) : ℂ) * Complex.I - 1).im
          = -Real.sin 0.32 := by
        simp [Real.sin_neg, Complex.cos_ofReal_re, Complex.sin_ofReal_re]
      rw [Complex.normSq_apply, hre, him]
      nlinarith [Real.sin_sq_add_cos_sq (0.32 : ℝ)]
    have hlow : (1e-3 : ℝ) ^ 2 < 2 - 2 * Real.cos 0.32 := by
      have h32 : (0.32 : ℝ) = 2 * 0.16 := by norm_num
      rw [h32, Real.cos_two_mul]
      have hs := Real.sin_gt_sub_cube (by norm_num : (0 : ℝ) < 0.16)
        (by norm_num : (0.16 : ℝ) ≤ 1)
      have hsc := Real.sin_sq_add_cos_sq (0.16 : ℝ)
      nlinarith [hs, hsc]
    have hnn := AbsoluteValue.nonneg Complex.abs
      (Complex.exp (((-0.32 : ℝ) : ℂ) * Complex.I) - 1)
    nlinarith [habs2, hlow, hnn]

/-- C8 (amended): on the longitudinal-field scenario the evolved state equals
the initial basis state up to a global phase of modulus 1, so all measurement
probabilities are unchanged exactly; the state vector itself is not within
`1e-3` of the initial one. -/
theorem longitudinal_global_phase :
    evolveFinalState probLong 1 1
      = probLong.initial_state.map (fun z => Complex.exp (((-0.32 : ℝ) : ℂ) * Complex.I) * z) ∧
    Complex.abs (Complex.exp (((-0.32 : ℝ) : ℂ) * Complex.I)) = 1 := by
  constructor
  · rw [evolveFinalState_longitudinal]
    show _ = [0, 0, 1, 0].map _
    simp
  · exact Complex.abs_exp_ofReal_mul_I (-0.32)
